import Mathlib

/-
Verification of the syz-hub corpus-synchronization service.

The RPC front end (Hub.Connect, Hub.Sync) is embedded from
src/syz-hub/hub.go.  The state-management layer it delegates to
(package state: the Manager Registry, the Corpus Store and the Sync
Engine) is not part of the available sources, so it is modelled from
the specification, as marked on each definition.

Programs are byte sequences; the content-addressed identity of a
program is a collision-resistant hash of its bytes, which a shallow
embedding renders as the bytes themselves (the hash is injective on
the domain of interest, so the two are interchangeable as map keys).
-/

namespace SyzHub

/-- A program: the raw test-input bytes.  Its content-addressed identity
is the byte sequence itself. -/
abbrev Prog := List Nat

/-- A set of operation categories (calls). -/
abbrev CallSet := Finset Nat

/-- Modelled from the spec: a Manager record of the Manager Registry,
holding the supported-call-set and the known-set of Input identities
this manager is believed to already hold.  (Name and shared secret live
in the configured key table of the Hub; the fresh flag only acts at
Connect time.) -/
structure Manager where
  calls : CallSet
  known : Finset Prog
deriving DecidableEq

/-- Modelled from the spec: the synchronization state — the Corpus
Store (deduplicated global set of Inputs, keyed by content identity)
plus the Manager Registry (an association of manager names to Manager
records). -/
structure State where
  corpus : Finset Prog
  managers : List (String × Manager)
deriving DecidableEq

/-- First-match association-list lookup (the embedding of a map keyed
by name). -/
def assoc {α : Type} : List (String × α) → String → Option α
  | [], _ => none
  | e :: rest, q => if e.1 = q then some e.2 else assoc rest q

/-- Apply a function to the record stored under a given name, leaving
every other entry unchanged. -/
def setMgr (ms : List (String × Manager)) (name : String) (f : Manager → Manager) :
    List (String × Manager) :=
  ms.map fun e => if e.1 = name then (e.1, f e.2) else e

/-- The Manager record registered under a name (the empty record if the
name is unknown). -/
def getMgr (st : State) (name : String) : Manager :=
  (assoc st.managers name).getD ⟨∅, ∅⟩

/-- Modelled from the spec: Corpus.Accept — inserts an Input keyed by
content identity; returns newly-added = true, or already-present
(flag false, state unchanged) if the identity exists.  Never fails. -/
def acceptProg (st : State) (p : Prog) : State × Bool :=
  if p ∈ st.corpus then (st, false)
  else ({ st with corpus := insert p st.corpus }, true)

/-- Modelled from the spec: Corpus.Delete — removes the Input if
present and returns whether it existed. -/
def deleteProg (st : State) (sig : Prog) : State × Bool :=
  ({ st with corpus := st.corpus.erase sig }, sig ∈ st.corpus)

/-- Modelled from the spec: Corpus.Snapshot — the set of Input
identities whose required-call-set (given by the pure function cf of
the program bytes) intersects the filter. -/
def snapshot (cf : Prog → CallSet) (corpus : Finset Prog) (filter : CallSet) : Finset Prog :=
  corpus.filter fun p => ((cf p) ∩ filter).Nonempty

/-- Modelled from the spec: Registry.MarkKnown — adds the given
identities to the known-set of the named manager. -/
def markKnown (st : State) (name : String) (ids : Finset Prog) : State :=
  { st with managers := setMgr st.managers name fun m => { m with known := m.known ∪ ids } }

/-- Modelled from the spec: Registry.MarkUnknown — removes the given
identities from the known-set of the named manager. -/
def markUnknown (st : State) (name : String) (ids : Finset Prog) : State :=
  { st with managers := setMgr st.managers name fun m => { m with known := m.known \ ids } }

/-- Modelled from the spec: Registry.Register — if the manager is
unknown, creates a new record with an empty known-set; if known and the
fresh flag is set, resets the known-set to empty; updates the
supported-call-set unconditionally. -/
def register (st : State) (name : String) (fresh : Bool) (calls : CallSet) : State :=
  match assoc st.managers name with
  | none => { st with managers := (name, ⟨calls, ∅⟩) :: st.managers }
  | some _ =>
      { st with managers := setMgr st.managers name fun m =>
          ⟨calls, if fresh then ∅ else m.known⟩ }

/-- Modelled from the spec: one reported addition — Corpus.Accept on
the program, then MarkKnown for the reporting manager (the manager
itself reported this identity, so it is never re-delivered back). -/
def syncAdd (st : State) (name : String) (p : Prog) : State :=
  markKnown (acceptProg st p).1 name {p}

/-- Modelled from the spec: one reported deletion — Corpus.Delete, and,
regardless of whether the identity existed globally, MarkUnknown for
the reporting manager. -/
def syncDel (st : State) (name : String) (sig : Prog) : State :=
  markUnknown (deleteProg st sig).1 name {sig}

/-- Modelled from the spec: apply all reported additions in order. -/
def applyAdds (st : State) (name : String) : List Prog → State
  | [] => st
  | p :: rest => applyAdds (syncAdd st name p) name rest

/-- Modelled from the spec: apply all reported deletions in order. -/
def applyDels (st : State) (name : String) : List Prog → State
  | [] => st
  | s :: rest => applyDels (syncDel st name s) name rest

/-- The error outcomes of the service: Unauthorized (bad name/secret
at the RPC layer), an unconnected manager calling Sync (the Sync step
of the session state machine requires the Registered state), and a
durability-write failure reported upward by the state layer. -/
inductive SyzErr where
  | unauthorized
  | unconnectedManager
  | persistenceFailure
deriving DecidableEq

/-- Modelled from the spec: the delta one Sync call computes —
additions applied first, then deletions, then
delta = Snapshot(supportedCalls) minus knownSet. -/
def syncDelta (cf : Prog → CallSet) (st : State) (name : String) (add del : List Prog) :
    Finset Prog :=
  (snapshot cf (applyDels (applyAdds st name add) name del).corpus
      (getMgr (applyDels (applyAdds st name add) name del) name).calls) \
    (getMgr (applyDels (applyAdds st name add) name del) name).known

/-- Modelled from the spec: the state after one Sync call — additions,
then deletions, then MarkKnown of the computed delta (the hub assumes
delivery succeeds once the delta is returned). -/
def syncState (cf : Prog → CallSet) (st : State) (name : String) (add del : List Prog) :
    State :=
  markKnown (applyDels (applyAdds st name add) name del) name (syncDelta cf st name add del)

/-- Modelled from the spec: state.Connect — registers the manager with
the declared capabilities and fresh flag; no corpus data is exchanged.
A durability-write failure is reported upward as the call failing,
before any mutation becomes externally visible. -/
def stConnect (st : State) (name : String) (fresh : Bool) (calls : CallSet) (pOk : Bool) :
    Except SyzErr State :=
  if pOk then Except.ok (register st name fresh calls)
  else Except.error SyzErr.persistenceFailure

/-- Modelled from the spec: state.Sync — requires the manager to be
registered; applies additions, then deletions, computes the delta,
marks it known and returns it.  A durability-write failure is reported
upward as the call failing, before any mutation becomes externally
visible. -/
def stSync (cf : Prog → CallSet) (st : State) (name : String) (add del : List Prog)
    (pOk : Bool) : Except SyzErr (State × Finset Prog) :=
  match assoc st.managers name with
  | none => Except.error SyzErr.unconnectedManager
  | some _ =>
      if pOk then Except.ok (syncState cf st name add del, syncDelta cf st name add del)
      else Except.error SyzErr.persistenceFailure

/-- The hub: the configured manager-name-to-secret table (built from
the config file in main) and the synchronization state.  Embeds the
Hub struct of src/syz-hub/hub.go. -/
structure Hub where
  keys : List (String × String)
  st : State
deriving DecidableEq

/-- The RPC response of Sync (rpctype.HubSyncRes): the delta inputs. -/
structure HubSyncRes where
  inputs : Finset Prog
deriving DecidableEq

/-- Embeds Hub.Connect of src/syz-hub/hub.go: if the name is absent
from the key table or the presented key differs from the configured
one, fail Unauthorized without touching the state; otherwise delegate
to state.Connect, propagating its error (state unchanged on error).
The second component is the hub after the call. -/
def hubConnect (h : Hub) (name key : String) (fresh : Bool) (calls : CallSet) (pOk : Bool) :
    Except SyzErr Unit × Hub :=
  match assoc h.keys name with
  | none => (Except.error SyzErr.unauthorized, h)
  | some k =>
      if k = key then
        match stConnect h.st name fresh calls pOk with
        | Except.error e => (Except.error e, h)
        | Except.ok st2 => (Except.ok (), { h with st := st2 })
      else (Except.error SyzErr.unauthorized, h)

/-- Embeds Hub.Sync of src/syz-hub/hub.go: authenticate exactly as
Connect does; on success delegate to state.Sync and assign the
returned inputs to the Inputs field of the response only after the
state-level Sync succeeds.  The second and third components are the
hub and the response record after the call. -/
def hubSync (cf : Prog → CallSet) (h : Hub) (name key : String) (add del : List Prog)
    (pOk : Bool) (r : HubSyncRes) : Except SyzErr Unit × Hub × HubSyncRes :=
  match assoc h.keys name with
  | none => (Except.error SyzErr.unauthorized, h, r)
  | some k =>
      if k = key then
        match stSync cf h.st name add del pOk with
        | Except.error e => (Except.error e, h, r)
        | Except.ok (st2, delta) => (Except.ok (), { h with st := st2 }, { inputs := delta })
      else (Except.error SyzErr.unauthorized, h, r)

/-- One RPC call of the service, with its environment outcome for the
durability write. -/
inductive Call where
  | connect (name key : String) (fresh : Bool) (calls : CallSet) (pOk : Bool)
  | sync (name key : String) (add del : List Prog) (pOk : Bool)
deriving DecidableEq

/-- The deletions a call reports (empty for Connect). -/
def delsOf : Call → List Prog
  | .connect _ _ _ _ _ => []
  | .sync _ _ _ del _ => del

/-- Execute one call against the hub, keeping the resulting hub. -/
def stepHub (cf : Prog → CallSet) (h : Hub) : Call → Hub
  | .connect n k f c p => (hubConnect h n k f c p).2
  | .sync n k a d p => (hubSync cf h n k a d p ⟨∅⟩).2.1

/-- Execute a sequence of calls against the hub. -/
def runHub (cf : Prog → CallSet) (h : Hub) : List Call → Hub
  | [] => h
  | c :: rest => runHub cf (stepHub cf h c) rest

/-! Basic lemmas about the registry and corpus primitives. -/

theorem assoc_setMgr (ms : List (String × Manager)) (name : String) (f : Manager → Manager)
    (q : String) :
    assoc (setMgr ms name f) q = if q = name then (assoc ms q).map f else assoc ms q := by
  induction ms with
  | nil => simp [setMgr, assoc]
  | cons e rest ih =>
    show assoc ((if e.1 = name then (e.1, f e.2) else e) :: setMgr rest name f) q = _
    by_cases h1 : e.1 = name
    · rw [if_pos h1]
      by_cases h2 : e.1 = q
      · have hqn : q = name := by rw [← h2, h1]
        simp [assoc, h2, hqn]
      · simp [assoc, h2, ih]
    · rw [if_neg h1]
      by_cases h2 : e.1 = q
      · have hqn : ¬ q = name := fun hq => h1 (by rw [h2, hq])
        simp [assoc, h2, hqn]
      · simp [assoc, h2, ih]

@[simp] theorem markKnown_corpus (st : State) (n : String) (ids : Finset Prog) :
    (markKnown st n ids).corpus = st.corpus := rfl

@[simp] theorem markUnknown_corpus (st : State) (n : String) (ids : Finset Prog) :
    (markUnknown st n ids).corpus = st.corpus := rfl

@[simp] theorem markKnown_managers (st : State) (n : String) (ids : Finset Prog) :
    (markKnown st n ids).managers
      = setMgr st.managers n fun m => { m with known := m.known ∪ ids } := rfl

@[simp] theorem markUnknown_managers (st : State) (n : String) (ids : Finset Prog) :
    (markUnknown st n ids).managers
      = setMgr st.managers n fun m => { m with known := m.known \ ids } := rfl

@[simp] theorem register_corpus (st : State) (n : String) (f : Bool) (c : CallSet) :
    (register st n f c).corpus = st.corpus := by
  unfold register; cases assoc st.managers n <;> rfl

@[simp] theorem acceptProg_managers (st : State) (p : Prog) :
    (acceptProg st p).1.managers = st.managers := by
  unfold acceptProg; split <;> rfl

@[simp] theorem deleteProg_managers (st : State) (s : Prog) :
    (deleteProg st s).1.managers = st.managers := rfl

theorem syncAdd_corpus (st : State) (n : String) (p : Prog) :
    (syncAdd st n p).corpus = insert p st.corpus := by
  unfold syncAdd acceptProg
  split
  · rename_i h
    simp [markKnown, Finset.insert_eq_self.2 h]
  · rfl

theorem syncDel_corpus (st : State) (n : String) (s : Prog) :
    (syncDel st n s).corpus = st.corpus.erase s := rfl

theorem syncAdd_assoc (st : State) (n : String) (p : Prog) (q : String) :
    assoc (syncAdd st n p).managers q =
      if q = n then (assoc st.managers q).map (fun m => { m with known := m.known ∪ {p} })
      else assoc st.managers q := by
  simp only [syncAdd, markKnown_managers, acceptProg_managers, assoc_setMgr]

theorem syncDel_assoc (st : State) (n : String) (s : Prog) (q : String) :
    assoc (syncDel st n s).managers q =
      if q = n then (assoc st.managers q).map (fun m => { m with known := m.known \ {s} })
      else assoc st.managers q := by
  simp only [syncDel, markUnknown_managers, deleteProg_managers, assoc_setMgr]

/-! Lemmas about applying a whole list of additions or deletions. -/

theorem applyAdds_corpus (n : String) (l : List Prog) : ∀ st : State,
    (applyAdds st n l).corpus = st.corpus ∪ l.toFinset := by
  induction l with
  | nil => intro st; simp [applyAdds]
  | cons p rest ih =>
    intro st
    rw [applyAdds, ih, syncAdd_corpus, Finset.insert_union, List.toFinset_cons,
      Finset.union_insert]

theorem applyAdds_assoc_ne (n : String) (l : List Prog) (q : String) (hq : q ≠ n) :
    ∀ st : State, assoc (applyAdds st n l).managers q = assoc st.managers q := by
  induction l with
  | nil => intro st; rfl
  | cons p rest ih =>
    intro st
    rw [applyAdds, ih, syncAdd_assoc]
    simp [hq]

theorem applyAdds_assoc_eq (n : String) (l : List Prog) :
    ∀ (st : State) (m : Manager), assoc st.managers n = some m →
      assoc (applyAdds st n l).managers n = some ⟨m.calls, m.known ∪ l.toFinset⟩ := by
  induction l with
  | nil => intro st m hm; rw [applyAdds, hm]; simp
  | cons p rest ih =>
    intro st m hm
    rw [applyAdds]
    have h1 : assoc (syncAdd st n p).managers n = some ⟨m.calls, m.known ∪ {p}⟩ := by
      rw [syncAdd_assoc]; simp [hm]
    rw [ih _ _ h1]
    have h2 : (m.known ∪ {p}) ∪ rest.toFinset = m.known ∪ (p :: rest).toFinset := by
      ext x; simp; tauto
    simp only [h2]

theorem applyDels_corpus (n : String) (l : List Prog) : ∀ st : State,
    (applyDels st n l).corpus = st.corpus \ l.toFinset := by
  induction l with
  | nil => intro st; simp [applyDels]
  | cons s rest ih =>
    intro st
    rw [applyDels, ih, syncDel_corpus]
    ext x; simp [Finset.mem_erase]; tauto

theorem applyDels_assoc_ne (n : String) (l : List Prog) (q : String) (hq : q ≠ n) :
    ∀ st : State, assoc (applyDels st n l).managers q = assoc st.managers q := by
  induction l with
  | nil => intro st; rfl
  | cons s rest ih =>
    intro st
    rw [applyDels, ih, syncDel_assoc]
    simp [hq]

theorem applyDels_assoc_eq (n : String) (l : List Prog) :
    ∀ (st : State) (m : Manager), assoc st.managers n = some m →
      assoc (applyDels st n l).managers n = some ⟨m.calls, m.known \ l.toFinset⟩ := by
  induction l with
  | nil => intro st m hm; rw [applyDels, hm]; simp
  | cons s rest ih =>
    intro st m hm
    rw [applyDels]
    have h1 : assoc (syncDel st n s).managers n = some ⟨m.calls, m.known \ {s}⟩ := by
      rw [syncDel_assoc]; simp [hm]
    rw [ih _ _ h1]
    have h2 : (m.known \ {s}) \ rest.toFinset = m.known \ (s :: rest).toFinset := by
      ext x; simp; tauto
    simp only [h2]

theorem applyAdds_assoc_none (n : String) (l : List Prog) :
    ∀ st : State, assoc st.managers n = none →
      assoc (applyAdds st n l).managers n = none := by
  induction l with
  | nil => intro st hm; rw [applyAdds, hm]
  | cons p rest ih =>
    intro st hm
    rw [applyAdds]
    refine ih _ ?_
    rw [syncAdd_assoc]
    simp [hm]

theorem applyDels_assoc_none (n : String) (l : List Prog) :
    ∀ st : State, assoc st.managers n = none →
      assoc (applyDels st n l).managers n = none := by
  induction l with
  | nil => intro st hm; rw [applyDels, hm]
  | cons s rest ih =>
    intro st hm
    rw [applyDels]
    refine ih _ ?_
    rw [syncDel_assoc]
    simp [hm]

/-! Characterization of one Sync call of the Sync Engine. -/

theorem getMgr_eq (st : State) (n : String) (m : Manager)
    (hm : assoc st.managers n = some m) : getMgr st n = m := by
  simp [getMgr, hm]

theorem syncDelta_eq (cf : Prog → CallSet) (st : State) (n : String) (add del : List Prog)
    (m : Manager) (hm : assoc st.managers n = some m) :
    syncDelta cf st n add del =
      snapshot cf ((st.corpus ∪ add.toFinset) \ del.toFinset) m.calls \
        ((m.known ∪ add.toFinset) \ del.toFinset) := by
  have h2 := applyDels_assoc_eq n del _ _ (applyAdds_assoc_eq n add st m hm)
  unfold syncDelta
  rw [getMgr_eq _ _ _ h2, applyDels_corpus, applyAdds_corpus]

theorem syncState_corpus (cf : Prog → CallSet) (st : State) (n : String) (add del : List Prog) :
    (syncState cf st n add del).corpus = (st.corpus ∪ add.toFinset) \ del.toFinset := by
  unfold syncState
  rw [markKnown_corpus, applyDels_corpus, applyAdds_corpus]

theorem syncState_assoc_ne (cf : Prog → CallSet) (st : State) (n : String) (add del : List Prog)
    (q : String) (hq : q ≠ n) :
    assoc (syncState cf st n add del).managers q = assoc st.managers q := by
  unfold syncState
  rw [markKnown_managers, assoc_setMgr, if_neg hq, applyDels_assoc_ne n del q hq,
    applyAdds_assoc_ne n add q hq]

theorem syncState_assoc_eq (cf : Prog → CallSet) (st : State) (n : String) (add del : List Prog)
    (m : Manager) (hm : assoc st.managers n = some m) :
    assoc (syncState cf st n add del).managers n =
      some ⟨m.calls, ((m.known ∪ add.toFinset) \ del.toFinset) ∪ syncDelta cf st n add del⟩ := by
  have h2 := applyDels_assoc_eq n del _ _ (applyAdds_assoc_eq n add st m hm)
  unfold syncState
  rw [markKnown_managers, assoc_setMgr, if_pos rfl, h2]
  rfl

theorem syncState_assoc_none (cf : Prog → CallSet) (st : State) (n : String)
    (add del : List Prog) (hm : assoc st.managers n = none) :
    assoc (syncState cf st n add del).managers n = none := by
  have h2 := applyDels_assoc_none n del _ (applyAdds_assoc_none n add st hm)
  unfold syncState
  rw [markKnown_managers, assoc_setMgr, if_pos rfl, h2]
  rfl

theorem stSync_ok (cf : Prog → CallSet) (st : State) (n : String) (add del : List Prog)
    (m : Manager) (hm : assoc st.managers n = some m) :
    stSync cf st n add del true
      = Except.ok (syncState cf st n add del, syncDelta cf st n add del) := by
  unfold stSync
  rw [hm]
  rfl

theorem stSync_not_unauth (cf : Prog → CallSet) (st : State) (n : String) (add del : List Prog)
    (pOk : Bool) : stSync cf st n add del pOk ≠ Except.error SyzErr.unauthorized := by
  unfold stSync
  cases assoc st.managers n with
  | none => simp
  | some m => cases pOk <;> simp

theorem stSync_inv (cf : Prog → CallSet) (st : State) (n : String) (add del : List Prog)
    (pOk : Bool) (st2 : State) (delta : Finset Prog)
    (hs : stSync cf st n add del pOk = Except.ok (st2, delta)) :
    ∃ m, assoc st.managers n = some m ∧ pOk = true ∧
      st2 = syncState cf st n add del ∧ delta = syncDelta cf st n add del := by
  unfold stSync at hs
  cases hA : assoc st.managers n with
  | none => rw [hA] at hs; simp at hs
  | some m =>
    rw [hA] at hs
    cases pOk with
    | false => simp at hs
    | true =>
      simp only [if_pos] at hs
      have h1 := Except.ok.inj hs
      exact ⟨m, rfl, rfl, (congrArg Prod.fst h1).symm, (congrArg Prod.snd h1).symm⟩

/-! Lemmas about the RPC front end. -/

theorem hubConnect_unauth (h : Hub) (n k : String) (f : Bool) (c : CallSet) (p : Bool)
    (hk : assoc h.keys n ≠ some k) :
    hubConnect h n k f c p = (Except.error SyzErr.unauthorized, h) := by
  unfold hubConnect
  cases hA : assoc h.keys n with
  | none => rfl
  | some k2 =>
    have hne : ¬ k2 = k := fun he => hk (by rw [hA, he])
    simp [hne]

theorem hubConnect_auth (h : Hub) (n k : String) (f : Bool) (c : CallSet)
    (hk : assoc h.keys n = some k) :
    hubConnect h n k f c true = (Except.ok (), { h with st := register h.st n f c }) := by
  unfold hubConnect stConnect
  rw [hk]
  simp

theorem hubConnect_persist (h : Hub) (n k : String) (f : Bool) (c : CallSet)
    (hk : assoc h.keys n = some k) :
    hubConnect h n k f c false = (Except.error SyzErr.persistenceFailure, h) := by
  unfold hubConnect stConnect
  rw [hk]
  simp

theorem hubConnect_not_unauth (h : Hub) (n k : String) (f : Bool) (c : CallSet) (p : Bool)
    (hk : assoc h.keys n = some k) :
    (hubConnect h n k f c p).1 ≠ Except.error SyzErr.unauthorized := by
  cases p with
  | false => rw [hubConnect_persist h n k f c hk]; simp
  | true => rw [hubConnect_auth h n k f c hk]; simp

theorem hubConnect_error_frame (h : Hub) (n k : String) (f : Bool) (c : CallSet) (p : Bool)
    (e : SyzErr) (he : (hubConnect h n k f c p).1 = Except.error e) :
    (hubConnect h n k f c p).2 = h := by
  unfold hubConnect stConnect at he ⊢
  cases hA : assoc h.keys n with
  | none => rfl
  | some k2 =>
    rw [hA] at he
    by_cases hkk : k2 = k
    · cases p with
      | false => simp [hkk]
      | true => simp [hkk] at he
    · simp [hkk]

theorem hubConnect_hub_corpus (h : Hub) (n k : String) (f : Bool) (c : CallSet) (p : Bool) :
    (hubConnect h n k f c p).2.st.corpus = h.st.corpus := by
  unfold hubConnect stConnect
  cases assoc h.keys n with
  | none => rfl
  | some k2 =>
    by_cases hkk : k2 = k
    · cases p with
      | false => simp [hkk]
      | true => simp [hkk]
    · simp [hkk]

theorem hubSync_unauth (cf : Prog → CallSet) (h : Hub) (n k : String) (add del : List Prog)
    (p : Bool) (r : HubSyncRes) (hk : assoc h.keys n ≠ some k) :
    hubSync cf h n k add del p r = (Except.error SyzErr.unauthorized, h, r) := by
  unfold hubSync
  cases hA : assoc h.keys n with
  | none => rfl
  | some k2 =>
    have hne : ¬ k2 = k := fun he => hk (by rw [hA, he])
    simp [hne]

theorem hubSync_ok (cf : Prog → CallSet) (h : Hub) (n k : String) (add del : List Prog)
    (r : HubSyncRes) (m : Manager) (hk : assoc h.keys n = some k)
    (hm : assoc h.st.managers n = some m) :
    hubSync cf h n k add del true r =
      (Except.ok (), { h with st := syncState cf h.st n add del },
        ⟨syncDelta cf h.st n add del⟩) := by
  unfold hubSync
  rw [hk, stSync_ok cf h.st n add del m hm]
  simp

theorem hubSync_state_err (cf : Prog → CallSet) (h : Hub) (n k : String) (add del : List Prog)
    (p : Bool) (r : HubSyncRes) (e : SyzErr) (hk : assoc h.keys n = some k)
    (hs : stSync cf h.st n add del p = Except.error e) :
    hubSync cf h n k add del p r = (Except.error e, h, r) := by
  unfold hubSync
  rw [hk, hs]
  simp

theorem hubSync_not_unauth (cf : Prog → CallSet) (h : Hub) (n k : String) (add del : List Prog)
    (p : Bool) (r : HubSyncRes) (hk : assoc h.keys n = some k) :
    (hubSync cf h n k add del p r).1 ≠ Except.error SyzErr.unauthorized := by
  unfold hubSync
  rw [hk]
  cases hs : stSync cf h.st n add del p with
  | error e =>
    have he : e ≠ SyzErr.unauthorized := fun hee =>
      stSync_not_unauth cf h.st n add del p (hee ▸ hs)
    simp [he]
  | ok pr =>
    obtain ⟨st2, delta⟩ := pr
    simp

theorem hubSync_error_frame (cf : Prog → CallSet) (h : Hub) (n k : String) (add del : List Prog)
    (p : Bool) (r : HubSyncRes) (e : SyzErr)
    (he : (hubSync cf h n k add del p r).1 = Except.error e) :
    (hubSync cf h n k add del p r).2.1 = h ∧ (hubSync cf h n k add del p r).2.2 = r := by
  unfold hubSync at he ⊢
  cases hA : assoc h.keys n with
  | none => exact ⟨rfl, rfl⟩
  | some k2 =>
    rw [hA] at he
    by_cases hkk : k2 = k
    · cases hs : stSync cf h.st n add del p with
      | error e2 => constructor <;> simp [hkk, hs]
      | ok pr =>
        obtain ⟨st2, delta⟩ := pr
        rw [hs] at he
        simp [hkk] at he
    · constructor <;> simp [hkk]

theorem hubSync_hub_cases (cf : Prog → CallSet) (h : Hub) (n k : String) (add del : List Prog)
    (p : Bool) (r : HubSyncRes) :
    (hubSync cf h n k add del p r).2.1 = h ∨
    (∃ m, assoc h.st.managers n = some m ∧
      (hubSync cf h n k add del p r).2.1 = { h with st := syncState cf h.st n add del }) := by
  unfold hubSync
  cases assoc h.keys n with
  | none => exact Or.inl rfl
  | some k2 =>
    by_cases hkk : k2 = k
    · cases hs : stSync cf h.st n add del p with
      | error e => left; simp [hkk, hs]
      | ok pr =>
        obtain ⟨st2, delta⟩ := pr
        obtain ⟨m, hm, hp, h1, h2⟩ := stSync_inv cf h.st n add del p st2 delta hs
        right
        exact ⟨m, hm, by simp [hkk, hs, h1]⟩
    · left; simp [hkk]

theorem hubConnect_cases (h : Hub) (n k : String) (f : Bool) (c : CallSet) (p : Bool) :
    (∃ e, hubConnect h n k f c p = (Except.error e, h)) ∨
    (assoc h.keys n = some k ∧ p = true ∧
      hubConnect h n k f c p = (Except.ok (), { h with st := register h.st n f c })) := by
  cases hA : assoc h.keys n with
  | none =>
    left
    exact ⟨SyzErr.unauthorized, hubConnect_unauth h n k f c p (by rw [hA]; simp)⟩
  | some k2 =>
    by_cases hkk : k2 = k
    · subst hkk
      cases p with
      | false => exact Or.inl ⟨SyzErr.persistenceFailure, hubConnect_persist h n k2 f c hA⟩
      | true => exact Or.inr ⟨rfl, rfl, hubConnect_auth h n k2 f c hA⟩
    · left
      refine ⟨SyzErr.unauthorized, hubConnect_unauth h n k f c p ?_⟩
      rw [hA]
      intro hc
      exact hkk (Option.some.inj hc)

/-! Lemmas about registration and call sequences. -/

theorem register_fresh (st : State) (n : String) (c : CallSet) :
    assoc (register st n true c).managers n = some ⟨c, ∅⟩ := by
  unfold register
  cases hA : assoc st.managers n with
  | none => simp [assoc]
  | some m => simp [assoc_setMgr, hA]

theorem register_assoc_ne (st : State) (n : String) (f : Bool) (c : CallSet) (q : String)
    (hq : q ≠ n) :
    assoc (register st n f c).managers q = assoc st.managers q := by
  unfold register
  cases hA : assoc st.managers n with
  | none =>
    have hnq : ¬ n = q := fun hh => hq hh.symm
    simp [assoc, hnq]
  | some m => simp [assoc_setMgr, hq]

/-- The invariant of §3 of the spec: every known-set is a subset of the
identity set of the Global Corpus. -/
def KnownSubset (st : State) : Prop :=
  ∀ q m, assoc st.managers q = some m → m.known ⊆ st.corpus

theorem register_knownSubset (st : State) (n : String) (f : Bool) (c : CallSet)
    (hI : KnownSubset st) : KnownSubset (register st n f c) := by
  intro q m hm
  rw [register_corpus]
  unfold register at hm
  cases hA : assoc st.managers n with
  | none =>
    rw [hA] at hm
    by_cases hq : n = q
    · simp only [assoc, if_pos hq] at hm
      obtain rfl := Option.some.inj hm
      simp
    · simp only [assoc, if_neg hq] at hm
      exact hI q m hm
  | some m0 =>
    rw [hA] at hm
    simp only [assoc_setMgr] at hm
    by_cases hq : q = n
    · subst hq
      rw [hA] at hm
      simp only [Option.map_some] at hm
      obtain rfl := Option.some.inj hm
      cases f with
      | false => simpa using hI q m0 hA
      | true => simp
    · rw [if_neg hq] at hm
      exact hI q m hm

theorem syncDelta_subset (cf : Prog → CallSet) (st : State) (n : String) (add del : List Prog) :
    syncDelta cf st n add del ⊆ (st.corpus ∪ add.toFinset) \ del.toFinset := by
  have h1 : (applyDels (applyAdds st n add) n del).corpus
      = (st.corpus ∪ add.toFinset) \ del.toFinset := by
    rw [applyDels_corpus, applyAdds_corpus]
  unfold syncDelta snapshot
  rw [h1]
  exact Finset.Subset.trans Finset.sdiff_subset (Finset.filter_subset _ _)

theorem syncState_knownSubset (cf : Prog → CallSet) (st : State) (n : String)
    (add : List Prog) (hI : KnownSubset st) : KnownSubset (syncState cf st n add []) := by
  intro q m hm
  rw [syncState_corpus]
  simp only [List.toFinset_nil, Finset.sdiff_empty]
  by_cases hq : q = n
  · subst hq
    cases hA : assoc st.managers q with
    | none =>
      rw [syncState_assoc_none cf st q add [] hA] at hm
      exact absurd hm (by simp)
    | some m0 =>
      rw [syncState_assoc_eq cf st q add [] m0 hA] at hm
      obtain rfl := Option.some.inj hm
      intro x hx
      simp only [List.toFinset_nil, Finset.sdiff_empty, Finset.mem_union] at hx
      rcases hx with (hx | hx) | hx
      · exact Finset.mem_union_left _ (hI q m0 hA hx)
      · exact Finset.mem_union_right _ hx
      · have h2 := syncDelta_subset cf st q add [] hx
        simpa using h2
  · rw [syncState_assoc_ne cf st n add [] q hq] at hm
    intro x hx
    exact Finset.mem_union_left _ (hI q m hm hx)

/-- The corpus after one call contains the corpus before it, provided
the call reports no deletions. -/
theorem stepHub_corpus_mono (cf : Prog → CallSet) (h : Hub) (c : Call)
    (hd : delsOf c = []) : h.st.corpus ⊆ (stepHub cf h c).st.corpus := by
  cases c with
  | connect n k f cs p =>
    rw [stepHub, hubConnect_hub_corpus]
  | sync n k a d p =>
    have hdel : d = [] := hd
    subst hdel
    rw [stepHub]
    rcases hubSync_hub_cases cf h n k a [] p ⟨∅⟩ with h1 | ⟨m, hm, h1⟩
    · rw [h1]
    · rw [h1]
      show h.st.corpus ⊆ (syncState cf h.st n a []).corpus
      rw [syncState_corpus]
      simp only [List.toFinset_nil, Finset.sdiff_empty]
      exact Finset.subset_union_left

theorem runHub_corpus_mono (cf : Prog → CallSet) (tr : List Call)
    (hd : ∀ c ∈ tr, delsOf c = []) :
    ∀ h : Hub, h.st.corpus ⊆ (runHub cf h tr).st.corpus := by
  induction tr with
  | nil => intro h; exact Finset.Subset.refl _
  | cons c rest ih =>
    intro h
    rw [runHub]
    exact Finset.Subset.trans
      (stepHub_corpus_mono cf h c (hd c (List.mem_cons_self c rest)))
      (ih (fun c2 hc2 => hd c2 (List.mem_cons_of_mem c hc2)) (stepHub cf h c))

/-- One call preserves the known-subset invariant, provided it reports
no deletions. -/
theorem stepHub_knownSubset (cf : Prog → CallSet) (h : Hub) (c : Call)
    (hd : delsOf c = []) (hI : KnownSubset h.st) : KnownSubset (stepHub cf h c).st := by
  cases c with
  | connect n k f cs p =>
    rw [stepHub]
    rcases hubConnect_cases h n k f cs p with ⟨e, h1⟩ | ⟨hk, hp, h1⟩
    · rw [h1]; exact hI
    · rw [h1]
      exact register_knownSubset h.st n f cs hI
  | sync n k a d p =>
    have hdel : d = [] := hd
    subst hdel
    rw [stepHub]
    rcases hubSync_hub_cases cf h n k a [] p ⟨∅⟩ with h1 | ⟨m, hm, h1⟩
    · rw [h1]; exact hI
    · rw [h1]
      exact syncState_knownSubset cf h.st n a hI

theorem runHub_knownSubset (cf : Prog → CallSet) (tr : List Call)
    (hd : ∀ c ∈ tr, delsOf c = []) :
    ∀ h : Hub, KnownSubset h.st → KnownSubset (runHub cf h tr).st := by
  induction tr with
  | nil => intro h hI; exact hI
  | cons c rest ih =>
    intro h hI
    rw [runHub]
    exact ih (fun c2 hc2 => hd c2 (List.mem_cons_of_mem c hc2)) (stepHub cf h c)
      (stepHub_knownSubset cf h c (hd c (List.mem_cons_self c rest)) hI)

theorem mem_snapshot (cf : Prog → CallSet) (s : Finset Prog) (fl : CallSet) (x : Prog) :
    x ∈ snapshot cf s fl ↔ x ∈ s ∧ ((cf x) ∩ fl).Nonempty := by
  simp [snapshot]

theorem hubSync_ok_inv (cf : Prog → CallSet) (h : Hub) (n k : String) (add del : List Prog)
    (p : Bool) (r : HubSyncRes)
    (hok : (hubSync cf h n k add del p r).1 = Except.ok ()) :
    assoc h.keys n = some k ∧ p = true ∧ (∃ m, assoc h.st.managers n = some m) ∧
    (hubSync cf h n k add del p r).2.1 = { h with st := syncState cf h.st n add del } ∧
    (hubSync cf h n k add del p r).2.2 = ⟨syncDelta cf h.st n add del⟩ := by
  unfold hubSync at hok ⊢
  cases hA : assoc h.keys n with
  | none => rw [hA] at hok; simp at hok
  | some k2 =>
    rw [hA] at hok
    by_cases hkk : k2 = k
    · subst hkk
      cases hs : stSync cf h.st n add del p with
      | error e => rw [hs] at hok; simp at hok
      | ok pr =>
        obtain ⟨st2, delta⟩ := pr
        obtain ⟨m, hm, hp, h1, h2⟩ := stSync_inv cf h.st n add del p st2 delta hs
        subst h1
        subst h2
        exact ⟨rfl, hp, ⟨m, hm⟩, by simp [hs], by simp [hs]⟩
    · simp [hkk] at hok

/-! Concrete fixtures used by the witnesses below. -/

/-- A concrete required-call-set function: every program exercises
operation category 0. -/
def cfDemo : Prog → CallSet := fun _ => {0}

/-- A concrete state with two registered managers and an empty corpus. -/
def stDemo : State := ⟨∅, [("A", ⟨{0}, ∅⟩), ("B", ⟨{0}, ∅⟩)]⟩

/-- A concrete hub over stDemo with two configured managers. -/
def hubDemo : Hub := ⟨[("A", "ka"), ("B", "kb")], stDemo⟩

/-- A concrete hub with configured secrets and a completely empty
synchronization state. -/
def hubEmpty : Hub := ⟨[("A", "ka"), ("B", "kb")], ⟨∅, []⟩⟩

/-- A small no-deletion call sequence. -/
def trDemo : List Call := [Call.connect "B" "kb" true {0} true]

/-- A no-deletion call sequence containing a Sync with an addition. -/
def trDemo2 : List Call :=
  [Call.sync "A" "ka" [[1]] [] true, Call.connect "B" "kb" true {0} true]

/-! The claims. -/

/-- C1: for every Connect or Sync call, authentication succeeds (the
call does not fail Unauthorized) iff the claimed manager name is
present in the configured manager table with exactly the presented
secret; when authentication fails, the call returns the Unauthorized
error and mutates no state — the hub (hence every known-set and the
Global Corpus) and the response record are returned unchanged. -/
theorem connect_sync_auth (cf : Prog → CallSet) (h : Hub) (name key : String) (fresh : Bool)
    (calls : CallSet) (add del : List Prog) (pOk : Bool) (r : HubSyncRes) :
    ((hubConnect h name key fresh calls pOk).1 ≠ Except.error SyzErr.unauthorized
        ↔ assoc h.keys name = some key) ∧
    ((hubSync cf h name key add del pOk r).1 ≠ Except.error SyzErr.unauthorized
        ↔ assoc h.keys name = some key) ∧
    (assoc h.keys name ≠ some key →
      (hubConnect h name key fresh calls pOk).1 = Except.error SyzErr.unauthorized ∧
      (hubSync cf h name key add del pOk r).1 = Except.error SyzErr.unauthorized ∧
      (hubConnect h name key fresh calls pOk).2 = h ∧
      (hubSync cf h name key add del pOk r).2.1 = h ∧
      (hubSync cf h name key add del pOk r).2.2 = r) := by
  refine ⟨⟨?_, ?_⟩, ⟨?_, ?_⟩, ?_⟩
  · intro hne
    by_contra hk
    rw [hubConnect_unauth h name key fresh calls pOk hk] at hne
    exact hne rfl
  · intro hk
    exact hubConnect_not_unauth h name key fresh calls pOk hk
  · intro hne
    by_contra hk
    rw [hubSync_unauth cf h name key add del pOk r hk] at hne
    exact hne rfl
  · intro hk
    exact hubSync_not_unauth cf h name key add del pOk r hk
  · intro hk
    rw [hubConnect_unauth h name key fresh calls pOk hk,
      hubSync_unauth cf h name key add del pOk r hk]
    exact ⟨rfl, rfl, rfl, rfl, rfl⟩

/-- Witness for connect_sync_auth: a wrong secret for an existing name
on a concrete hub leaves hub state and response untouched. -/
theorem connect_sync_auth_witness :
    (hubConnect hubDemo "A" "bad" true ∅ true).1 = Except.error SyzErr.unauthorized ∧
    (hubSync cfDemo hubDemo "A" "bad" [[1]] [] true ⟨∅⟩).1
      = Except.error SyzErr.unauthorized ∧
    (hubConnect hubDemo "A" "bad" true ∅ true).2 = hubDemo ∧
    (hubSync cfDemo hubDemo "A" "bad" [[1]] [] true ⟨∅⟩).2.1 = hubDemo ∧
    (hubSync cfDemo hubDemo "A" "bad" [[1]] [] true ⟨∅⟩).2.2 = ⟨∅⟩ :=
  (connect_sync_auth cfDemo hubDemo "A" "bad" true ∅ [[1]] [] true ⟨∅⟩).2.2 (by decide)

/-- C2 counterexample: with valid credentials but a failing durability
write, Connect fails with the persistence error — neither Unauthorized
nor success — so it is not the case that Connect always succeeds when
the name/secret pair matches the configuration. -/
theorem connect_other_failure_cex :
    assoc hubDemo.keys "A" = some "ka" ∧
    hubConnect hubDemo "A" "ka" true ∅ false
      = (Except.error SyzErr.persistenceFailure, hubDemo) :=
  ⟨rfl, hubConnect_persist hubDemo "A" "ka" true ∅ rfl⟩

/-- C2 amended: Connect fails with Unauthorized exactly when the
name/secret pair does not match the configuration; with matching
credentials it succeeds whenever the underlying state operation (the
durability write) succeeds, and otherwise fails by propagating that
state-level error — these are the only outcomes of Connect. -/
theorem connect_outcomes (h : Hub) (name key : String) (fresh : Bool) (calls : CallSet)
    (pOk : Bool) :
    (assoc h.keys name ≠ some key →
      (hubConnect h name key fresh calls pOk).1 = Except.error SyzErr.unauthorized) ∧
    (assoc h.keys name = some key → pOk = true →
      (hubConnect h name key fresh calls pOk).1 = Except.ok ()) ∧
    (assoc h.keys name = some key → pOk = false →
      (hubConnect h name key fresh calls pOk).1
        = Except.error SyzErr.persistenceFailure) := by
  refine ⟨?_, ?_, ?_⟩
  · intro hk
    rw [hubConnect_unauth h name key fresh calls pOk hk]
  · intro hk hp
    subst hp
    rw [hubConnect_auth h name key fresh calls hk]
  · intro hk hp
    subst hp
    rw [hubConnect_persist h name key fresh calls hk]

/-- Witness for connect_outcomes: matching credentials with a working
durability write succeed; a wrong secret is Unauthorized. -/
theorem connect_outcomes_witness :
    (hubConnect hubDemo "A" "ka" true ∅ true).1 = Except.ok () ∧
    (hubConnect hubDemo "A" "bad" true ∅ true).1 = Except.error SyzErr.unauthorized :=
  ⟨(connect_outcomes hubDemo "A" "ka" true ∅ true).2.1 rfl rfl,
   (connect_outcomes hubDemo "A" "bad" true ∅ true).1 (by decide)⟩

/-- C3: within one Sync call, additions are applied before deletions
and both before the delta is computed, so the returned delta never
contains a program the calling manager added in that same call, and
never contains a program it deleted in that same call. -/
theorem sync_no_self_delivery (cf : Prog → CallSet) (st : State) (name : String)
    (add del : List Prog) (pOk : Bool) (st2 : State) (delta : Finset Prog)
    (hs : stSync cf st name add del pOk = Except.ok (st2, delta)) :
    (∀ x ∈ add, x ∉ delta) ∧ ∀ x ∈ del, x ∉ delta := by
  obtain ⟨m, hm, hp, hst, hdelta⟩ := stSync_inv cf st name add del pOk st2 delta hs
  subst hdelta
  rw [syncDelta_eq cf st name add del m hm]
  constructor
  · intro x hx hmem
    rw [Finset.mem_sdiff] at hmem
    obtain ⟨hsnap, hknown⟩ := hmem
    rw [mem_snapshot] at hsnap
    obtain ⟨hcorp, _⟩ := hsnap
    rw [Finset.mem_sdiff] at hcorp
    apply hknown
    rw [Finset.mem_sdiff]
    exact ⟨Finset.mem_union_right _ (List.mem_toFinset.2 hx), hcorp.2⟩
  · intro x hx hmem
    rw [Finset.mem_sdiff] at hmem
    obtain ⟨hsnap, _⟩ := hmem
    rw [mem_snapshot] at hsnap
    obtain ⟨hcorp, _⟩ := hsnap
    rw [Finset.mem_sdiff] at hcorp
    exact hcorp.2 (List.mem_toFinset.2 hx)

/-- Witness for sync_no_self_delivery: a concrete successful Sync with
one addition and one deletion delivers neither back. -/
theorem sync_no_self_delivery_witness :
    (∀ x ∈ ([[1]] : List Prog), x ∉ syncDelta cfDemo stDemo "A" [[1]] [[2]]) ∧
    ∀ x ∈ ([[2]] : List Prog), x ∉ syncDelta cfDemo stDemo "A" [[1]] [[2]] :=
  sync_no_self_delivery cfDemo stDemo "A" [[1]] [[2]] true
    (syncState cfDemo stDemo "A" [[1]] [[2]]) (syncDelta cfDemo stDemo "A" [[1]] [[2]]) rfl

/-- C10: whenever a Sync call fails — from failed authentication or
from an error of the state-level Sync — the Inputs field of the RPC
response is left unmodified (it is assigned only after the state-level
Sync succeeds), so a caller observing an error never receives a
partial delta. -/
theorem sync_response_unchanged_on_error (cf : Prog → CallSet) (h : Hub) (name key : String)
    (add del : List Prog) (pOk : Bool) (r : HubSyncRes) (e : SyzErr)
    (he : (hubSync cf h name key add del pOk r).1 = Except.error e) :
    (hubSync cf h name key add del pOk r).2.2 = r :=
  (hubSync_error_frame cf h name key add del pOk r e he).2

/-- Witness for sync_response_unchanged_on_error: a Sync whose
durability write fails leaves the response record unchanged. -/
theorem sync_response_unchanged_on_error_witness :
    (hubSync cfDemo hubDemo "A" "ka" [[1]] [] false ⟨∅⟩).2.2 = ⟨∅⟩ :=
  sync_response_unchanged_on_error cfDemo hubDemo "A" "ka" [[1]] [] false ⟨∅⟩
    SyzErr.persistenceFailure rfl

/-- C4: Accept is idempotent and content-deduplicating — after a
manager successfully submits program p in a Sync, p is in the Corpus
Store; it is still there after any further no-deletion call sequence;
a second submission of the same bytes (same or different manager)
leaves the Corpus Store exactly as it was, and the second Accept
reports already-present (flag false, state unchanged) rather than
failing. -/
theorem accept_idempotent_dedup (cf : Prog → CallSet) (h h1 h2 : Hub)
    (nA kA nB kB : String) (p : Prog) (r : HubSyncRes) (tr : List Call)
    (hok : (hubSync cf h nA kA [p] [] true r).1 = Except.ok ())
    (hh1 : h1 = (hubSync cf h nA kA [p] [] true r).2.1)
    (hd : ∀ c ∈ tr, delsOf c = [])
    (hh2 : h2 = runHub cf h1 tr) :
    p ∈ h1.st.corpus ∧ p ∈ h2.st.corpus ∧
    (hubSync cf h2 nB kB [p] [] true ⟨∅⟩).2.1.st.corpus = h2.st.corpus ∧
    acceptProg h2.st p = (h2.st, false) := by
  obtain ⟨hk, hp, ⟨m, hm⟩, hhub, hres⟩ := hubSync_ok_inv cf h nA kA [p] [] true r hok
  have hp1 : p ∈ h1.st.corpus := by
    rw [hh1, hhub]
    show p ∈ (syncState cf h.st nA [p] []).corpus
    rw [syncState_corpus]
    simp
  have hp2 : p ∈ h2.st.corpus := by
    rw [hh2]
    exact runHub_corpus_mono cf tr hd h1 hp1
  refine ⟨hp1, hp2, ?_, ?_⟩
  · rcases hubSync_hub_cases cf h2 nB kB [p] [] true ⟨∅⟩ with hcase | ⟨m2, hm2, hcase⟩
    · rw [hcase]
    · rw [hcase]
      show (syncState cf h2.st nB [p] []).corpus = h2.st.corpus
      rw [syncState_corpus]
      simp only [List.toFinset_nil, Finset.sdiff_empty, List.toFinset_cons]
      ext x
      simp only [Finset.mem_union, Finset.mem_insert, List.toFinset_nil,
        Finset.not_mem_empty, or_false]
      constructor
      · rintro (hx | rfl)
        · exact hx
        · exact hp2
      · exact Or.inl
  · unfold acceptProg
    rw [if_pos hp2]

/-- Witness for accept_idempotent_dedup on concrete managers A and B
with an intermediate no-deletion Connect. -/
theorem accept_idempotent_dedup_witness :
    [1] ∈ (hubSync cfDemo hubDemo "A" "ka" [[1]] [] true ⟨∅⟩).2.1.st.corpus ∧
    [1] ∈ (runHub cfDemo (hubSync cfDemo hubDemo "A" "ka" [[1]] [] true ⟨∅⟩).2.1
        trDemo).st.corpus ∧
    (hubSync cfDemo
        (runHub cfDemo (hubSync cfDemo hubDemo "A" "ka" [[1]] [] true ⟨∅⟩).2.1 trDemo)
        "B" "kb" [[1]] [] true ⟨∅⟩).2.1.st.corpus
      = (runHub cfDemo (hubSync cfDemo hubDemo "A" "ka" [[1]] [] true ⟨∅⟩).2.1
          trDemo).st.corpus ∧
    acceptProg
        (runHub cfDemo (hubSync cfDemo hubDemo "A" "ka" [[1]] [] true ⟨∅⟩).2.1 trDemo).st
        [1]
      = ((runHub cfDemo (hubSync cfDemo hubDemo "A" "ka" [[1]] [] true ⟨∅⟩).2.1 trDemo).st,
         false) :=
  accept_idempotent_dedup cfDemo hubDemo
    (hubSync cfDemo hubDemo "A" "ka" [[1]] [] true ⟨∅⟩).2.1
    (runHub cfDemo (hubSync cfDemo hubDemo "A" "ka" [[1]] [] true ⟨∅⟩).2.1 trDemo)
    "A" "ka" "B" "kb" [1] ⟨∅⟩ trDemo rfl rfl (by decide) rfl

/-- C5: Connect with freshFlag=true resets the known-set of that manager to
empty, so an immediately following Sync with empty additions and
deletions succeeds and returns a delta equal to the entire Global
Corpus filtered by the supported-call-set declared at Connect. -/
theorem fresh_connect_full_delta (cf : Prog → CallSet) (h : Hub) (name key : String)
    (calls : CallSet) (r : HubSyncRes) (hk : assoc h.keys name = some key) :
    (hubConnect h name key true calls true).1 = Except.ok () ∧
    (hubSync cf (hubConnect h name key true calls true).2 name key [] [] true r).1
      = Except.ok () ∧
    (hubSync cf (hubConnect h name key true calls true).2 name key [] [] true r).2.2.inputs
      = snapshot cf h.st.corpus calls := by
  rw [hubConnect_auth h name key true calls hk]
  have hm := register_fresh h.st name calls
  have hsync := hubSync_ok cf { h with st := register h.st name true calls } name key [] [] r
    ⟨calls, ∅⟩ hk hm
  dsimp only
  rw [hsync]
  refine ⟨rfl, rfl, ?_⟩
  show syncDelta cf (register h.st name true calls) name [] []
      = snapshot cf h.st.corpus calls
  rw [syncDelta_eq cf (register h.st name true calls) name [] [] ⟨calls, ∅⟩ hm]
  simp

/-- Witness for fresh_connect_full_delta on a concrete hub whose corpus
already holds one program. -/
theorem fresh_connect_full_delta_witness :
    (hubConnect hubDemo "B" "kb" true {0} true).1 = Except.ok () ∧
    (hubSync cfDemo (hubConnect hubDemo "B" "kb" true {0} true).2 "B" "kb" [] [] true
        ⟨∅⟩).1 = Except.ok () ∧
    (hubSync cfDemo (hubConnect hubDemo "B" "kb" true {0} true).2 "B" "kb" [] [] true
        ⟨∅⟩).2.2.inputs = snapshot cfDemo hubDemo.st.corpus {0} :=
  fresh_connect_full_delta cfDemo hubDemo "B" "kb" {0} ⟨∅⟩ rfl

/-- C6: over any sequence of Connect and Sync calls in which no
deletion is ever reported, the identity set of the Global Corpus is
non-decreasing. -/
theorem corpus_monotone_no_deletions (cf : Prog → CallSet) (h : Hub) (tr : List Call)
    (hd : ∀ c ∈ tr, delsOf c = []) :
    h.st.corpus ⊆ (runHub cf h tr).st.corpus :=
  runHub_corpus_mono cf tr hd h

/-- Witness for corpus_monotone_no_deletions on a concrete hub and
no-deletion trace. -/
theorem corpus_monotone_no_deletions_witness :
    hubDemo.st.corpus ⊆ (runHub cfDemo hubDemo trDemo2).st.corpus :=
  corpus_monotone_no_deletions cfDemo hubDemo trDemo2 (by decide)

/-- A call trace exhibiting a hub-wide deletion by one manager of a
program another manager still knows. -/
def trBad : List Call :=
  [Call.connect "B" "kb" false {0} true,
   Call.sync "B" "kb" [[1]] [] true,
   Call.connect "A" "ka" false {0} true,
   Call.sync "A" "ka" [] [[1]] true]

/-- C7 counterexample: after B connects and adds program [1] and then A
connects and reports the deletion of [1], the identity [1] is still in
the known-set of B but no longer in the Global Corpus — so after this
Sync operation the known-set of B is not a subset of the identity set
of the Global Corpus. -/
theorem known_subset_cex :
    [1] ∈ (getMgr (runHub cfDemo hubEmpty trBad).st "B").known ∧
    [1] ∉ (runHub cfDemo hubEmpty trBad).st.corpus ∧
    ¬ ((getMgr (runHub cfDemo hubEmpty trBad).st "B").known
        ⊆ (runHub cfDemo hubEmpty trBad).st.corpus) := by
  decide

/-- C7 amended: the known-set of every manager stays a subset of the
identity set of the Global Corpus under every Connect and Sync
operation that reports no deletion (identities enter a known-set only
via accepted additions or delivery, and additions also enter the
corpus); a deletion report removes the identity hub-wide from the
corpus but only from the known-set of the reporting manager, so it can
strand the identity in the known-set of another manager. -/
theorem known_subset_no_deletions (cf : Prog → CallSet) (h : Hub) (tr : List Call)
    (hd : ∀ c ∈ tr, delsOf c = []) (hI : KnownSubset h.st) :
    KnownSubset (runHub cf h tr).st :=
  runHub_knownSubset cf tr hd h hI

/-- Witness for known_subset_no_deletions from the empty hub over a
concrete no-deletion trace. -/
theorem known_subset_no_deletions_witness :
    KnownSubset (runHub cfDemo hubEmpty trDemo2).st :=
  known_subset_no_deletions cfDemo hubEmpty trDemo2 (by decide)
    (by intro q m hm; simp [hubEmpty, assoc] at hm)

/-- C8: Delete removes the Input from the (hub-wide, shared by all
managers) Global Corpus when present and returns whether it existed,
leaving all other identities untouched; consequently once the Sync of
one manager reports a deletion the program is gone from the Global
Corpus, and a subsequent fresh Connect plus empty Sync by any other
manager yields a delta not containing it. -/
theorem delete_hub_wide (cf : Prog → CallSet) (st0 st st1 stB st2 : State) (sig : Prog)
    (nA nB : String) (callsB : CallSet) (d1 d2 : Finset Prog)
    (hA : stSync cf st nA [] [sig] true = Except.ok (st1, d1))
    (hB : stConnect st1 nB true callsB true = Except.ok stB)
    (hB2 : stSync cf stB nB [] [] true = Except.ok (st2, d2)) :
    ((deleteProg st0 sig).2 = true ↔ sig ∈ st0.corpus) ∧
    sig ∉ (deleteProg st0 sig).1.corpus ∧
    (∀ x, x ≠ sig → (x ∈ (deleteProg st0 sig).1.corpus ↔ x ∈ st0.corpus)) ∧
    sig ∉ st1.corpus ∧
    sig ∉ d2 := by
  obtain ⟨mA, hmA, _, hst1, hd1e⟩ := stSync_inv cf st nA [] [sig] true st1 d1 hA
  have hcorp1 : sig ∉ st1.corpus := by
    rw [hst1, syncState_corpus]
    simp
  have hstB : stB = register st1 nB true callsB := by
    unfold stConnect at hB
    simp only [if_pos] at hB
    exact (Except.ok.inj hB).symm
  obtain ⟨mB, hmB, _, hst2, hd2e⟩ := stSync_inv cf stB nB [] [] true st2 d2 hB2
  refine ⟨by simp [deleteProg], Finset.not_mem_erase sig st0.corpus, ?_, hcorp1, ?_⟩
  · intro x hx
    simp [deleteProg, Finset.mem_erase, hx]
  · have hmB2 : assoc stB.managers nB = some ⟨callsB, ∅⟩ := by
      rw [hstB]
      exact register_fresh st1 nB callsB
    subst hd2e
    rw [syncDelta_eq cf stB nB [] [] ⟨callsB, ∅⟩ hmB2]
    intro hc
    rw [Finset.mem_sdiff, mem_snapshot, Finset.mem_sdiff] at hc
    have hmem : sig ∈ stB.corpus := by simpa using hc.1.1.1
    rw [hstB, register_corpus] at hmem
    exact hcorp1 hmem

/-- Witness for delete_hub_wide: a concrete corpus holding one program,
deleted by A, is absent from the delta of a fresh B. -/
theorem delete_hub_wide_witness :
    ((deleteProg ⟨{[1]}, [("A", ⟨{0}, ∅⟩)]⟩ [1]).2 = true
        ↔ [1] ∈ State.corpus ⟨{[1]}, [("A", ⟨{0}, ∅⟩)]⟩) ∧
    [1] ∉ (deleteProg ⟨{[1]}, [("A", ⟨{0}, ∅⟩)]⟩ [1]).1.corpus ∧
    (∀ x, x ≠ [1] →
      (x ∈ (deleteProg ⟨{[1]}, [("A", ⟨{0}, ∅⟩)]⟩ [1]).1.corpus
        ↔ x ∈ State.corpus ⟨{[1]}, [("A", ⟨{0}, ∅⟩)]⟩)) ∧
    [1] ∉ (syncState cfDemo ⟨{[1]}, [("A", ⟨{0}, ∅⟩)]⟩ "A" [] [[1]]).corpus ∧
    [1] ∉ syncDelta cfDemo
        (register (syncState cfDemo ⟨{[1]}, [("A", ⟨{0}, ∅⟩)]⟩ "A" [] [[1]]) "B" true {0})
        "B" [] [] :=
  delete_hub_wide cfDemo ⟨{[1]}, [("A", ⟨{0}, ∅⟩)]⟩ ⟨{[1]}, [("A", ⟨{0}, ∅⟩)]⟩
    (syncState cfDemo ⟨{[1]}, [("A", ⟨{0}, ∅⟩)]⟩ "A" [] [[1]])
    (register (syncState cfDemo ⟨{[1]}, [("A", ⟨{0}, ∅⟩)]⟩ "A" [] [[1]]) "B" true {0})
    (syncState cfDemo
      (register (syncState cfDemo ⟨{[1]}, [("A", ⟨{0}, ∅⟩)]⟩ "A" [] [[1]]) "B" true {0})
      "B" [] [])
    [1] "A" "B" {0}
    (syncDelta cfDemo ⟨{[1]}, [("A", ⟨{0}, ∅⟩)]⟩ "A" [] [[1]])
    (syncDelta cfDemo
      (register (syncState cfDemo ⟨{[1]}, [("A", ⟨{0}, ∅⟩)]⟩ "A" [] [[1]]) "B" true {0})
      "B" [] [])
    rfl rfl rfl

/-- C9: convergence — after manager A successfully adds program X in a
Sync and before any deletion of X, the next Sync of manager B returns
a delta containing X, provided the required-call-set of X intersects
the supported-call-set of B, X is not already in the known-set of B,
and the call of B does not itself report X. -/
theorem convergence_delivery (cf : Prog → CallSet) (st st1 stB2 : State) (nA nB : String)
    (X : Prog) (d1 d2 : Finset Prog) (addB delB : List Prog) (mB : Manager)
    (hA : stSync cf st nA [X] [] true = Except.ok (st1, d1))
    (hmB : assoc st1.managers nB = some mB)
    (hinter : ((cf X) ∩ mB.calls).Nonempty)
    (hknown : X ∉ mB.known)
    (haddB : X ∉ addB) (hdelB : X ∉ delB)
    (hB : stSync cf st1 nB addB delB true = Except.ok (stB2, d2)) :
    X ∈ d2 := by
  obtain ⟨mA, hmA, _, hst1, hd1e⟩ := stSync_inv cf st nA [X] [] true st1 d1 hA
  have hX1 : X ∈ st1.corpus := by
    rw [hst1, syncState_corpus]
    simp
  obtain ⟨mB2, hmB2, _, hst2, hd2e⟩ := stSync_inv cf st1 nB addB delB true stB2 d2 hB
  rw [hmB] at hmB2
  obtain rfl := Option.some.inj hmB2
  subst hd2e
  rw [syncDelta_eq cf st1 nB addB delB mB hmB]
  rw [Finset.mem_sdiff, mem_snapshot, Finset.mem_sdiff]
  refine ⟨⟨⟨Finset.mem_union_left _ hX1, ?_⟩, hinter⟩, ?_⟩
  · exact fun hc => hdelB (List.mem_toFinset.1 hc)
  · intro hc
    rw [Finset.mem_sdiff, Finset.mem_union] at hc
    rcases hc.1 with hk | ha
    · exact hknown hk
    · exact haddB (List.mem_toFinset.1 ha)

/-- Witness for convergence_delivery: A adds [1]; the next Sync of B
delivers it. -/
theorem convergence_delivery_witness :
    [1] ∈ syncDelta cfDemo (syncState cfDemo stDemo "A" [[1]] []) "B" [] [] :=
  convergence_delivery cfDemo stDemo (syncState cfDemo stDemo "A" [[1]] [])
    (syncState cfDemo (syncState cfDemo stDemo "A" [[1]] []) "B" [] [])
    "A" "B" [1]
    (syncDelta cfDemo stDemo "A" [[1]] [])
    (syncDelta cfDemo (syncState cfDemo stDemo "A" [[1]] []) "B" [] [])
    [] [] ⟨{0}, ∅⟩
    rfl (by decide) (by decide) (by decide) (by decide) (by decide) rfl

end SyzHub
